import Mathlib

/-
Verification of the FuD JobManager scheduling core (src/src/server/job_manager.h).

The repository ships only the header for the JobManager: the class declaration,
its field list (_producingJobs, _waitingJobs, _jobQueue, _pendingList,
_ids_to_job_map, _status, _event_queue) and the doc comments of each operation.
The method bodies (job_manager.cpp) are not part of the sources, so every
operation below is modelled from the specification's description of it,
constrained by the header's structure (which handlers exist, which containers
they touch, the Status enum, the event-queue type).

Jobs, job units, messages and client proxies are abstracted to numeric
identifiers.  Ghost observation fields (trace, delivered, errorCount,
createdIds, removedJobs) record what happened without influencing behaviour.
-/

namespace FuD

/-- Scheduler status, after `enum Status {kStopped, kPaused, kRunning}` in
job_manager.h. -/
inductive Status where
  | kStopped
  | kPaused
  | kRunning
deriving DecidableEq, Repr

/-- Events pushed to the JobManager's LockingQueue, one constructor per method
of the JobManagerEventHandler interface (job_manager.h): a free client, the
completion of a job unit (with its JobUnitID and result message), and the
completion of a whole DistributableJob. -/
inductive JMEvent where
  | freeClient
  | jobUnitCompleted (id : Nat) (msg : Nat)
  | distJobCompleted (job : Nat)
deriving DecidableEq, Repr

/-- Modelled from the spec: the whole JobManager state.  Fields mirror the
attributes of class JobManager in job_manager.h; `supply` models the external
jobs' remaining immediately-producible units (the Job capability contract);
`freeWorkers` models the ClientsManager's count of free workers; `delivered`,
`errorCount`, `trace`, `createdIds` and `removedJobs` are ghost observations. -/
structure JMState where
  capacity : Nat
  producingJobs : List Nat
  waitingJobs : List Nat
  jobQueue : List Nat
  pendingList : List Nat
  ids_to_job_map : List (Nat × Nat)
  nextUnitId : Nat
  status : Status
  threadSpawned : Bool
  eventQueue : List JMEvent
  freeWorkers : Nat
  supply : List (Nat × Nat)
  delivered : List (Nat × Nat × Nat)
  errorCount : Nat
  trace : List JMEvent
  createdIds : List Nat
  removedJobs : List Nat
deriving DecidableEq, Repr

/-- First-match lookup in an association list, as std::map::find on
_ids_to_job_map. -/
def lookupJob : List (Nat × Nat) → Nat → Option Nat
  | [], _ => none
  | (k, v) :: rest, id => if k = id then some v else lookupJob rest id

/-- Removal of a key, as std::map::erase on _ids_to_job_map. -/
def eraseKey (m : List (Nat × Nat)) (id : Nat) : List (Nat × Nat) :=
  m.filter (fun p => decide (p.1 ≠ id))

/-- The set of unit IDs currently in the registry. -/
def registryKeys (s : JMState) : List Nat :=
  s.ids_to_job_map.map Prod.fst

/-- Remaining immediately-producible units of a job (0 = nothing to offer now). -/
def getSupply : List (Nat × Nat) → Nat → Nat
  | [], _ => 0
  | (k, v) :: rest, j => if k = j then v else getSupply rest j

/-- Update a job's supply. -/
def setSupply (l : List (Nat × Nat)) (j n : Nat) : List (Nat × Nat) :=
  (j, n) :: l.filter (fun p => decide (p.1 ≠ j))

/-- Modelled from the spec: `job_queue_full` — the ready unit queue has reached
its configured capacity (job_manager.cpp is absent from the sources). -/
def job_queue_full (s : JMState) : Bool :=
  decide (s.capacity ≤ s.jobQueue.length)

/-- Modelled from the spec: `jobs_available` — select a producing job in
insertion order of the producing list (job_manager.cpp is absent from the
sources). -/
def jobs_available (s : JMState) : Option Nat :=
  match s.producingJobs with
  | [] => none
  | j :: _ => some j

/-- Modelled from the spec: `create_another_job_unit` — ask the selected
producing job to emit exactly one unit; on success assign the fresh unit ID
`nextUnitId`, insert (ID, job) into the registry, append the unit to the ready
queue and rotate the producing list (round-robin); a job with nothing to offer
now moves from the producing list to the waiting list (job_manager.cpp is
absent from the sources). -/
def create_another_job_unit (s : JMState) : JMState :=
  match s.producingJobs with
  | [] => s
  | j :: rest =>
    if 0 < getSupply s.supply j then
      { s with
        supply := setSupply s.supply j (getSupply s.supply j - 1),
        producingJobs := rest ++ [j],
        ids_to_job_map := s.ids_to_job_map ++ [(s.nextUnitId, j)],
        jobQueue := s.jobQueue ++ [s.nextUnitId],
        createdIds := s.createdIds ++ [s.nextUnitId],
        nextUnitId := s.nextUnitId + 1 }
    else
      { s with producingJobs := rest, waitingJobs := s.waitingJobs ++ [j] }

/-- Modelled from the spec: `handle_job_queue_not_full_event` — replenish the
ready unit queue by repeated `jobs_available`/`create_another_job_unit` calls
until the queue reaches capacity or no producing job remains; `fuel` bounds the
iteration (job_manager.cpp is absent from the sources). -/
def handle_job_queue_not_full_event : Nat → JMState → JMState
  | 0, s => s
  | fuel + 1, s =>
    if job_queue_full s then s
    else
      match jobs_available s with
      | none => s
      | some _ => handle_job_queue_not_full_event fuel (create_another_job_unit s)

/-- Enough fuel for the replenishment loop: each iteration either lengthens the
ready queue (bounded by capacity) or shortens the producing list. -/
def fillFuel (s : JMState) : Nat :=
  s.capacity + s.producingJobs.length

/-- Modelled from the spec: `enqueue` plus `handle_new_job_event` — the new job
enters the producing list if it can immediately produce a unit (supply `n` is
positive), otherwise the waiting list; then the manager fills the ready unit
queue up to capacity (job_manager.cpp is absent from the sources). -/
def enqueue (j n : Nat) (s : JMState) : JMState :=
  let s1 := { s with supply := setSupply s.supply j n }
  let s2 :=
    if 0 < n then { s1 with producingJobs := s1.producingJobs ++ [j] }
    else { s1 with waitingJobs := s1.waitingJobs ++ [j] }
  handle_job_queue_not_full_event (fillFuel s2) s2

/-- Modelled from the spec: `handle_free_client_event` — ask the pool for some
free worker (no specific worker identity is assumed); if one exists and the
ready unit queue is non-empty, dispatch its head unit to that worker (the unit
becomes pending); otherwise take no action (job_manager.cpp is absent from the
sources). -/
def handle_free_client_event (s : JMState) : JMState :=
  if 0 < s.freeWorkers then
    match s.jobQueue with
    | [] => s
    | u :: rest =>
      { s with
        jobQueue := rest,
        pendingList := s.pendingList ++ [u],
        freeWorkers := s.freeWorkers - 1 }
  else s

/-- Retire a completed unit owned by job `j`: remove the ID from the registry
and the pending list, and forward the result message to the owning job. -/
def retire_unit (id msg j : Nat) (s : JMState) : JMState :=
  { s with
    ids_to_job_map := eraseKey s.ids_to_job_map id,
    pendingList := s.pendingList.filter (fun u => decide (u ≠ id)),
    delivered := s.delivered ++ [(j, id, msg)] }

/-- Modelled from the spec: `handle_job_unit_completed_event` — look up the
owning job in the unit registry; if absent this is an UnknownUnitError: it is
only counted and the event is dropped; if present, remove the ID from the
registry, forward the result to the owning job, and raise the local
queue-not-full occurrence to attempt backfilling (job_manager.cpp is absent
from the sources). -/
def handle_job_unit_completed_event (id msg : Nat) (s : JMState) : JMState :=
  match lookupJob s.ids_to_job_map id with
  | none => { s with errorCount := s.errorCount + 1 }
  | some j =>
    handle_job_queue_not_full_event (fillFuel (retire_unit id msg j s)) (retire_unit id msg j s)

/-- Modelled from the spec: `handle_distributable_job_completed_event` — remove
the job from whichever list holds it; the registry and the ready queue are not
purged of its units (job_manager.cpp is absent from the sources). -/
def handle_distributable_job_completed_event (j : Nat) (s : JMState) : JMState :=
  { s with
    producingJobs := s.producingJobs.filter (fun x => decide (x ≠ j)),
    waitingJobs := s.waitingJobs.filter (fun x => decide (x ≠ j)),
    removedJobs := s.removedJobs ++ [j] }

/-- Modelled from the spec: `start_scheduler` — if stopped, spawn the loop
thread and run; if paused, resume; if already running, no-op (job_manager.cpp
is absent from the sources). -/
def start_scheduler (s : JMState) : JMState :=
  match s.status with
  | Status.kStopped => { s with status := Status.kRunning, threadSpawned := true }
  | Status.kPaused => { s with status := Status.kRunning }
  | Status.kRunning => s

/-- Modelled from the spec: `stop_scheduler` — set the state to paused; the
loop thread keeps running and keeps draining the queue (job_manager.cpp is
absent from the sources). -/
def stop_scheduler (s : JMState) : JMState :=
  { s with status := Status.kPaused }

/-- Dispatch of a dequeued event to its handler, by event kind. -/
def handle_event (e : JMEvent) (s : JMState) : JMState :=
  match e with
  | JMEvent.freeClient => handle_free_client_event s
  | JMEvent.jobUnitCompleted id msg => handle_job_unit_completed_event id msg s
  | JMEvent.distJobCompleted j => handle_distributable_job_completed_event j s

/-- Modelled from the spec: one iteration of `run_scheduler` — blocking pop
(no-op while the queue is empty); if the state is running, record the event in
the handled trace and dispatch it; if paused, the dequeued event is discarded
without handling (job_manager.cpp is absent from the sources). -/
def run_scheduler_step (s : JMState) : JMState :=
  match s.eventQueue with
  | [] => s
  | e :: rest =>
    if s.status = Status.kRunning then
      handle_event e { s with eventQueue := rest, trace := s.trace ++ [e] }
    else
      { s with eventQueue := rest }

/-- `n` iterations of the scheduler loop. -/
def runLoop : Nat → JMState → JMState
  | 0, s => s
  | n + 1, s => runLoop n (run_scheduler_step s)

/-- LockingQueue push: appends at the tail, preserving arrival order. -/
def push_event (e : JMEvent) (s : JMState) : JMState :=
  { s with eventQueue := s.eventQueue ++ [e] }

/-- `free_client_event`: a worker became free (pool count grows) and the
occurrence is recorded as an Event on the queue. -/
def free_client_event (s : JMState) : JMState :=
  push_event JMEvent.freeClient { s with freeWorkers := s.freeWorkers + 1 }

/-- `job_unit_completed_event`: record a unit-completion occurrence. -/
def job_unit_completed_event (id msg : Nat) (s : JMState) : JMState :=
  push_event (JMEvent.jobUnitCompleted id msg) s

/-- `distributable_job_completed_event`: record a job-completion occurrence. -/
def distributable_job_completed_event (j : Nat) (s : JMState) : JMState :=
  push_event (JMEvent.distJobCompleted j) s

/-- Modelled from the spec: external notification that a waiting job became
ready again moves it back to the producing list, with a fresh supply. -/
def wake_job (j n : Nat) (s : JMState) : JMState :=
  { s with
    waitingJobs := s.waitingJobs.filter (fun x => decide (x ≠ j)),
    producingJobs := s.producingJobs ++ [j],
    supply := setSupply s.supply j n }

/-- Initial JobManager state with ready-queue capacity `c`: everything empty,
scheduler stopped, loop thread not yet spawned. -/
def initState (c : Nat) : JMState :=
  { capacity := c, producingJobs := [], waitingJobs := [], jobQueue := [],
    pendingList := [], ids_to_job_map := [], nextUnitId := 0,
    status := Status.kStopped, threadSpawned := false, eventQueue := [],
    freeWorkers := 0, supply := [], delivered := [], errorCount := 0,
    trace := [], createdIds := [], removedJobs := [] }

/-- One step of the whole system: a caller, a job, the worker pool or the
scheduler loop acts.  Enqueueing the same job twice is a caller contract
violation (spec section 7), so `stepEnqueue` requires the job to be new; the
loop only runs once its thread has been spawned. -/
inductive Step : JMState → JMState → Prop where
  | stepEnqueue (s : JMState) (j n : Nat)
      (hp : j ∉ s.producingJobs) (hw : j ∉ s.waitingJobs) (hr : j ∉ s.removedJobs) :
      Step s (enqueue j n s)
  | stepStart (s : JMState) : Step s (start_scheduler s)
  | stepStop (s : JMState) : Step s (stop_scheduler s)
  | stepFreeWorker (s : JMState) : Step s (free_client_event s)
  | stepUnitCompleted (s : JMState) (id msg : Nat) :
      Step s (job_unit_completed_event id msg s)
  | stepJobCompleted (s : JMState) (j : Nat) :
      Step s (distributable_job_completed_event j s)
  | stepLoop (s : JMState) (ht : s.threadSpawned = true) :
      Step s (run_scheduler_step s)
  | stepWake (s : JMState) (j n : Nat) (hw : j ∈ s.waitingJobs) :
      Step s (wake_job j n s)

/-- A state is reachable when a sequence of steps leads to it from the initial
state with capacity `c`. -/
def Reachable (c : Nat) (s : JMState) : Prop :=
  Relation.ReflTransGen Step (initState c) s

/-- Singleton pointer cell: the static `JobManager* _instance` of job_manager.h
(`none` models a NULL pointer), together with the number of constructor calls
performed so far. -/
structure SingletonSt where
  inst : Option Nat
  ctorCalls : Nat
deriving DecidableEq, Repr

/-- Modelled from the spec: `get_instance` — on the first call (stored pointer
still NULL) construct the single JobManager and store its address; every later
call returns the stored pointer unchanged.  The constructor, copy constructor
and assignment operator are private in job_manager.h, so this operation is the
only way to obtain an instance (job_manager.cpp is absent from the sources). -/
def get_instance : SingletonSt → SingletonSt × Nat
  | ⟨none, k⟩ => (⟨some k, k + 1⟩, k)
  | ⟨some p, k⟩ => (⟨some p, k⟩, p)

/-- Iterated `get_instance` calls, dropping the returned pointers. -/
def callSeq : Nat → SingletonSt → SingletonSt
  | 0, st => st
  | n + 1, st => callSeq n (get_instance st).1

/-- A small reachable state: job 7 enqueued with two immediately producible
units under capacity 2, so units 0 and 1 sit in the ready queue and registry. -/
def sW : JMState :=
  enqueue 7 2 (initState 2)

/-- The state `sW` after one worker announces itself free. -/
def sW_free : JMState :=
  free_client_event sW

/-- A running state with two unit-completion events pending in the queue. -/
def c2_state : JMState :=
  job_unit_completed_event 1 5 (job_unit_completed_event 9 4 (start_scheduler (initState 1)))

/-- A paused state whose queue holds one pending completion event. -/
def c3_paused : JMState :=
  job_unit_completed_event 0 10 (stop_scheduler (start_scheduler (initState 1)))

/-- Scenario of the pause-semantics claim: enqueue a four-unit job under
capacity 4, start the scheduler, dispatch all four units to four free workers,
pause, push completions for units 0, 1 and 2, let the loop drain them while
paused, resume, push the completion of unit 3 and handle it. -/
def c3_final : JMState :=
  runLoop 1
    (job_unit_completed_event 3 99
      (start_scheduler
        (runLoop 3
          (job_unit_completed_event 2 12
            (job_unit_completed_event 1 11
              (job_unit_completed_event 0 10
                (stop_scheduler
                  (runLoop 4
                    (free_client_event
                      (free_client_event
                        (free_client_event
                          (free_client_event
                            (start_scheduler (enqueue 7 4 (initState 4)))))))))))))))

/-- Scenario refuting the literal registry invariant: job 5 contributes unit 0
to the ready queue, then reports completion while unit 0 is still registered;
handling the completion unlinks job 5 from both lists without purging the
registry. -/
def c7_state : JMState :=
  run_scheduler_step
    (distributable_job_completed_event 5 (start_scheduler (enqueue 5 1 (initState 1))))

/-- The claimed registry invariant exactly as the spec words it: every ID in
the registry names a job that is still present in the producing or waiting
list. -/
def RegistryJobsTracked (s : JMState) : Prop :=
  ∀ p ∈ s.ids_to_job_map, p.2 ∈ s.producingJobs ∨ p.2 ∈ s.waitingJobs

/-- The inductive invariant of the JobManager: the ready queue respects its
capacity; created unit IDs are strictly increasing (hence unique) and below
the ID counter; registry keys are created IDs, without duplicates; every
registry entry points at a job in the producing list, the waiting list, or at
a job whose completion has been handled; a completed job is in neither list. -/
structure Inv (s : JMState) : Prop where
  qcap : s.jobQueue.length ≤ s.capacity
  created_sorted : List.Pairwise (· < ·) s.createdIds
  created_lt : ∀ id ∈ s.createdIds, id < s.nextUnitId
  keys_sub : ∀ id ∈ registryKeys s, id ∈ s.createdIds
  keys_nodup : (registryKeys s).Nodup
  entries_tracked : ∀ p ∈ s.ids_to_job_map,
    p.2 ∈ s.producingJobs ∨ p.2 ∈ s.waitingJobs ∨ p.2 ∈ s.removedJobs
  removed_out : ∀ j ∈ s.removedJobs, j ∉ s.producingJobs ∧ j ∉ s.waitingJobs

/-- Fields of the state that the replenishment loop never touches, together
with monotonicity of the unit-ID counter. -/
def FrameEq (s t : JMState) : Prop :=
  t.capacity = s.capacity ∧ t.status = s.status ∧ t.threadSpawned = s.threadSpawned ∧
  t.eventQueue = s.eventQueue ∧ t.freeWorkers = s.freeWorkers ∧
  t.pendingList = s.pendingList ∧ t.delivered = s.delivered ∧
  t.errorCount = s.errorCount ∧ t.trace = s.trace ∧
  t.removedJobs = s.removedJobs ∧ s.nextUnitId ≤ t.nextUnitId

theorem frameEq_refl (s : JMState) : FrameEq s s :=
  ⟨rfl, rfl, rfl, rfl, rfl, rfl, rfl, rfl, rfl, rfl, Nat.le_refl _⟩

theorem frameEq_trans {s t u : JMState} (h1 : FrameEq s t) (h2 : FrameEq t u) :
    FrameEq s u := by
  obtain ⟨a1, b1, c1, d1, e1, f1, g1, h1', i1, j1, k1⟩ := h1
  obtain ⟨a2, b2, c2, d2, e2, f2, g2, h2', i2, j2, k2⟩ := h2
  exact ⟨a2.trans a1, b2.trans b1, c2.trans c1, d2.trans d1, e2.trans e1,
    f2.trans f1, g2.trans g1, h2'.trans h1', i2.trans i1, j2.trans j1,
    Nat.le_trans k1 k2⟩

theorem lookupJob_eq_none_iff (m : List (Nat × Nat)) (id : Nat) :
    lookupJob m id = none ↔ id ∉ m.map Prod.fst := by
  induction m with
  | nil => simp [lookupJob]
  | cons p rest ih =>
    obtain ⟨k, v⟩ := p
    by_cases hk : k = id
    · subst hk; simp [lookupJob]
    · have hik : id ≠ k := fun h => hk h.symm
      rw [lookupJob, if_neg hk, ih]
      simp [hik, not_or]

theorem lookupJob_mem {m : List (Nat × Nat)} {id j : Nat}
    (h : lookupJob m id = some j) : (id, j) ∈ m := by
  induction m with
  | nil => simp [lookupJob] at h
  | cons p rest ih =>
    obtain ⟨k, v⟩ := p
    by_cases hk : k = id
    · rw [lookupJob, if_pos hk] at h
      obtain rfl := hk
      obtain rfl : v = j := Option.some.inj h
      exact List.mem_cons_self _ _
    · rw [lookupJob, if_neg hk] at h
      exact List.mem_cons_of_mem _ (ih h)

theorem lookupJob_eraseKey_self (m : List (Nat × Nat)) (id : Nat) :
    lookupJob (eraseKey m id) id = none := by
  rw [lookupJob_eq_none_iff]
  simp only [eraseKey, List.mem_map, List.mem_filter, decide_eq_true_eq]
  rintro ⟨p, ⟨-, hne⟩, hfst⟩
  exact hne hfst

theorem eraseKey_sub {m : List (Nat × Nat)} {id : Nat} {p : Nat × Nat}
    (h : p ∈ eraseKey m id) : p ∈ m :=
  List.mem_of_mem_filter h

theorem eraseKey_keys_sub {m : List (Nat × Nat)} {id k : Nat}
    (h : k ∈ (eraseKey m id).map Prod.fst) : k ∈ m.map Prod.fst := by
  simp only [List.mem_map] at h ⊢
  obtain ⟨p, hp, rfl⟩ := h
  exact ⟨p, eraseKey_sub hp, rfl⟩

theorem eraseKey_keys_nodup {m : List (Nat × Nat)} {id : Nat}
    (h : (m.map Prod.fst).Nodup) : ((eraseKey m id).map Prod.fst).Nodup :=
  ((List.filter_sublist m).map Prod.fst).nodup h

theorem lookupJob_append_single (m : List (Nat × Nat)) (k v id : Nat) (h : k ≠ id) :
    lookupJob (m ++ [(k, v)]) id = lookupJob m id := by
  induction m with
  | nil => simp [lookupJob, h]
  | cons p rest ih =>
    obtain ⟨a, b⟩ := p
    by_cases ha : a = id <;> simp [lookupJob, ha, ih]

theorem mem_rotate {a j : Nat} {rest : List Nat} :
    a ∈ rest ++ [j] ↔ a ∈ j :: rest := by
  simp [or_comm]

theorem nodup_append_singleton {l : List Nat} {a : Nat}
    (hl : l.Nodup) (ha : a ∉ l) : (l ++ [a]).Nodup :=
  (List.perm_append_singleton a l).nodup_iff.mpr (List.nodup_cons.mpr ⟨ha, hl⟩)

theorem pairwise_lt_append_singleton {l : List Nat} {a : Nat}
    (hl : List.Pairwise (· < ·) l) (ha : ∀ x ∈ l, x < a) :
    List.Pairwise (· < ·) (l ++ [a]) := by
  refine List.pairwise_append.mpr ⟨hl, List.pairwise_singleton _ _, ?_⟩
  intro x hx y hy
  obtain rfl := List.mem_singleton.mp hy
  exact ha x hx

theorem create_frame (s : JMState) : FrameEq s (create_another_job_unit s) := by
  cases hpj : s.producingJobs with
  | nil =>
    rw [create_another_job_unit, hpj]
    exact frameEq_refl s
  | cons j rest =>
    by_cases hsup : 0 < getSupply s.supply j
    · simp only [create_another_job_unit, hpj, if_pos hsup]
      exact ⟨rfl, rfl, rfl, rfl, rfl, rfl, rfl, rfl, rfl, rfl, Nat.le_succ _⟩
    · simp only [create_another_job_unit, hpj, if_neg hsup]
      exact frameEq_refl _

theorem fill_frame (fuel : Nat) (s : JMState) :
    FrameEq s (handle_job_queue_not_full_event fuel s) := by
  induction fuel generalizing s with
  | zero => exact frameEq_refl s
  | succ n ih =>
    rw [handle_job_queue_not_full_event]
    by_cases hf : job_queue_full s
    · rw [if_pos hf]; exact frameEq_refl s
    · rw [if_neg hf]
      cases hj : jobs_available s with
      | none => exact frameEq_refl s
      | some j => exact frameEq_trans (create_frame s) (ih (create_another_job_unit s))

theorem FrameEq.nextUnitId_le {s t : JMState} (h : FrameEq s t) :
    s.nextUnitId ≤ t.nextUnitId :=
  h.2.2.2.2.2.2.2.2.2.2

theorem FrameEq.capacity_eq {s t : JMState} (h : FrameEq s t) : t.capacity = s.capacity :=
  h.1

theorem FrameEq.status_eq {s t : JMState} (h : FrameEq s t) : t.status = s.status :=
  h.2.1

theorem FrameEq.eventQueue_eq {s t : JMState} (h : FrameEq s t) :
    t.eventQueue = s.eventQueue :=
  h.2.2.2.1

theorem FrameEq.delivered_eq {s t : JMState} (h : FrameEq s t) :
    t.delivered = s.delivered :=
  h.2.2.2.2.2.2.1

theorem FrameEq.errorCount_eq {s t : JMState} (h : FrameEq s t) :
    t.errorCount = s.errorCount :=
  h.2.2.2.2.2.2.2.1

theorem FrameEq.trace_eq {s t : JMState} (h : FrameEq s t) : t.trace = s.trace :=
  h.2.2.2.2.2.2.2.2.1

theorem create_lookup_lt (s : JMState) (id : Nat) (hid : id < s.nextUnitId) :
    lookupJob (create_another_job_unit s).ids_to_job_map id =
      lookupJob s.ids_to_job_map id := by
  cases hpj : s.producingJobs with
  | nil => rw [create_another_job_unit, hpj]
  | cons j rest =>
    by_cases hsup : 0 < getSupply s.supply j
    · simp only [create_another_job_unit, hpj, if_pos hsup]
      exact lookupJob_append_single _ _ _ _ (by omega)
    · simp only [create_another_job_unit, hpj, if_neg hsup]

theorem fill_lookup_lt (fuel : Nat) (s : JMState) (id : Nat) (hid : id < s.nextUnitId) :
    lookupJob (handle_job_queue_not_full_event fuel s).ids_to_job_map id =
      lookupJob s.ids_to_job_map id := by
  induction fuel generalizing s with
  | zero => rfl
  | succ n ih =>
    rw [handle_job_queue_not_full_event]
    by_cases hf : job_queue_full s
    · rw [if_pos hf]
    · rw [if_neg hf]
      cases hj : jobs_available s with
      | none => rfl
      | some j =>
        have h2 := ih (create_another_job_unit s)
          (Nat.lt_of_lt_of_le hid (create_frame s).nextUnitId_le)
        rw [h2, create_lookup_lt s id hid]

theorem inv_create (s : JMState) (hs : Inv s) (hq : s.jobQueue.length < s.capacity) :
    Inv (create_another_job_unit s) := by
  obtain ⟨qcap, csort, clt, ksub, knd, ety, rout⟩ := hs
  cases hpj : s.producingJobs with
  | nil =>
    rw [create_another_job_unit, hpj]
    exact ⟨qcap, csort, clt, ksub, knd, ety, rout⟩
  | cons j rest =>
    by_cases hsup : 0 < getSupply s.supply j
    · simp only [create_another_job_unit, hpj, if_pos hsup]
      refine ⟨?_, ?_, ?_, ?_, ?_, ?_, ?_⟩
      · simp only [List.length_append, List.length_singleton]
        omega
      · exact pairwise_lt_append_singleton csort clt
      · intro id hid
        rcases List.mem_append.mp hid with h | h
        · exact Nat.lt_succ_of_lt (clt id h)
        · obtain rfl := List.mem_singleton.mp h
          exact Nat.lt_succ_self _
      · intro id hid
        simp only [registryKeys, List.map_append, List.map_cons, List.map_nil] at hid
        rcases List.mem_append.mp hid with h | h
        · exact List.mem_append_left _ (ksub id h)
        · obtain rfl := List.mem_singleton.mp h
          exact List.mem_append_right _ (List.mem_singleton.mpr rfl)
      · simp only [registryKeys, List.map_append, List.map_cons, List.map_nil]
        refine nodup_append_singleton knd (fun h => ?_)
        exact Nat.lt_irrefl _ (clt _ (ksub _ h))
      · intro p hp
        rcases List.mem_append.mp hp with h | h
        · rw [hpj] at ety
          rcases ety p h with h1 | h1 | h1
          · exact Or.inl (mem_rotate.mpr h1)
          · exact Or.inr (Or.inl h1)
          · exact Or.inr (Or.inr h1)
        · obtain rfl := List.mem_singleton.mp h
          exact Or.inl (List.mem_append_right _ (List.mem_singleton.mpr rfl))
      · intro r hr
        rw [hpj] at rout
        obtain ⟨h1, h2⟩ := rout r hr
        exact ⟨fun hmem => h1 (mem_rotate.mp hmem), h2⟩
    · simp only [create_another_job_unit, hpj, if_neg hsup]
      refine ⟨qcap, csort, clt, ksub, knd, ?_, ?_⟩
      · intro p hp
        rw [hpj] at ety
        rcases ety p hp with h1 | h1 | h1
        · rcases List.mem_cons.mp h1 with h2 | h2
          · exact Or.inr (Or.inl (List.mem_append_right _ (by simp [h2])))
          · exact Or.inl h2
        · exact Or.inr (Or.inl (List.mem_append_left _ h1))
        · exact Or.inr (Or.inr h1)
      · intro r hr
        rw [hpj] at rout
        obtain ⟨h1, h2⟩ := rout r hr
        refine ⟨fun hmem => h1 (List.mem_cons_of_mem _ hmem), fun hmem => ?_⟩
        rcases List.mem_append.mp hmem with h3 | h3
        · exact h2 h3
        · exact h1 (by simp [List.mem_singleton.mp h3])

theorem inv_fill (fuel : Nat) (s : JMState) (hs : Inv s) :
    Inv (handle_job_queue_not_full_event fuel s) := by
  induction fuel generalizing s with
  | zero => exact hs
  | succ n ih =>
    rw [handle_job_queue_not_full_event]
    by_cases hf : job_queue_full s
    · rw [if_pos hf]; exact hs
    · rw [if_neg hf]
      cases hj : jobs_available s with
      | none => exact hs
      | some j =>
        have hq : s.jobQueue.length < s.capacity := by
          simp only [job_queue_full, decide_eq_true_eq] at hf
          omega
        exact ih _ (inv_create s hs hq)

theorem inv_congr {s t : JMState} (hs : Inv s)
    (h1 : t.capacity = s.capacity) (h2 : t.jobQueue = s.jobQueue)
    (h3 : t.createdIds = s.createdIds) (h4 : t.nextUnitId = s.nextUnitId)
    (h5 : t.ids_to_job_map = s.ids_to_job_map) (h6 : t.producingJobs = s.producingJobs)
    (h7 : t.waitingJobs = s.waitingJobs) (h8 : t.removedJobs = s.removedJobs) :
    Inv t := by
  obtain ⟨qcap, csort, clt, ksub, knd, ety, rout⟩ := hs
  refine ⟨by rw [h1, h2]; exact qcap, by rw [h3]; exact csort,
    by rw [h3, h4]; exact clt, ?_, ?_, ?_, ?_⟩
  · simp only [registryKeys, h5, h3]
    exact ksub
  · simp only [registryKeys, h5]
    exact knd
  · simp only [h5, h6, h7, h8]
    exact ety
  · simp only [h6, h7, h8]
    exact rout

theorem inv_add_producing (s : JMState) (j : Nat) (l : List (Nat × Nat))
    (hr : j ∉ s.removedJobs) (hs : Inv s) :
    Inv { s with supply := l, producingJobs := s.producingJobs ++ [j] } := by
  obtain ⟨qcap, csort, clt, ksub, knd, ety, rout⟩ := hs
  refine ⟨qcap, csort, clt, ksub, knd, ?_, ?_⟩
  · intro p hp
    rcases ety p hp with h | h | h
    · exact Or.inl (List.mem_append_left _ h)
    · exact Or.inr (Or.inl h)
    · exact Or.inr (Or.inr h)
  · intro r hrm
    obtain ⟨h1, h2⟩ := rout r hrm
    refine ⟨fun hmem => ?_, h2⟩
    rcases List.mem_append.mp hmem with h3 | h3
    · exact h1 h3
    · exact hr ((List.mem_singleton.mp h3) ▸ hrm)

theorem inv_add_waiting (s : JMState) (j : Nat) (l : List (Nat × Nat))
    (hr : j ∉ s.removedJobs) (hs : Inv s) :
    Inv { s with supply := l, waitingJobs := s.waitingJobs ++ [j] } := by
  obtain ⟨qcap, csort, clt, ksub, knd, ety, rout⟩ := hs
  refine ⟨qcap, csort, clt, ksub, knd, ?_, ?_⟩
  · intro p hp
    rcases ety p hp with h | h | h
    · exact Or.inl h
    · exact Or.inr (Or.inl (List.mem_append_left _ h))
    · exact Or.inr (Or.inr h)
  · intro r hrm
    obtain ⟨h1, h2⟩ := rout r hrm
    refine ⟨h1, fun hmem => ?_⟩
    rcases List.mem_append.mp hmem with h3 | h3
    · exact h2 h3
    · exact hr ((List.mem_singleton.mp h3) ▸ hrm)

theorem inv_enqueue (s : JMState) (j n : Nat) (hr : j ∉ s.removedJobs) (hs : Inv s) :
    Inv (enqueue j n s) := by
  rw [enqueue]
  by_cases hn : 0 < n
  · rw [if_pos hn]
    exact inv_fill _ _ (inv_add_producing s j _ hr hs)
  · rw [if_neg hn]
    exact inv_fill _ _ (inv_add_waiting s j _ hr hs)

theorem inv_wake (s : JMState) (j n : Nat) (hw : j ∈ s.waitingJobs) (hs : Inv s) :
    Inv (wake_job j n s) := by
  obtain ⟨qcap, csort, clt, ksub, knd, ety, rout⟩ := hs
  have hjr : j ∉ s.removedJobs := fun h => (rout j h).2 hw
  refine ⟨qcap, csort, clt, ksub, knd, ?_, ?_⟩
  · intro p hp
    rcases ety p hp with h | h | h
    · exact Or.inl (List.mem_append_left _ h)
    · by_cases hpj : p.2 = j
      · exact Or.inl (List.mem_append_right _ (by simp [hpj]))
      · exact Or.inr (Or.inl (List.mem_filter.mpr ⟨h, by simp [hpj]⟩))
    · exact Or.inr (Or.inr h)
  · intro r hrm
    obtain ⟨h1, h2⟩ := rout r hrm
    have hrj : r ≠ j := fun h => hjr (h ▸ hrm)
    refine ⟨fun hmem => ?_, fun hmem => h2 (List.mem_of_mem_filter hmem)⟩
    rcases List.mem_append.mp hmem with h3 | h3
    · exact h1 h3
    · exact hrj (List.mem_singleton.mp h3)

theorem inv_start (s : JMState) (hs : Inv s) : Inv (start_scheduler s) := by
  cases hst : s.status <;> rw [start_scheduler, hst] <;>
    exact inv_congr hs rfl rfl rfl rfl rfl rfl rfl rfl

theorem inv_handle_free (s : JMState) (hs : Inv s) : Inv (handle_free_client_event s) := by
  rw [handle_free_client_event]
  by_cases hw : 0 < s.freeWorkers
  · rw [if_pos hw]
    cases hq : s.jobQueue with
    | nil => exact hs
    | cons u rest =>
      obtain ⟨qcap, csort, clt, ksub, knd, ety, rout⟩ := hs
      refine ⟨?_, csort, clt, ksub, knd, ety, rout⟩
      rw [hq] at qcap
      simp only [List.length_cons] at qcap
      exact Nat.le_of_succ_le qcap
  · rw [if_neg hw]
    exact hs

theorem inv_handle_completed (id msg : Nat) (s : JMState) (hs : Inv s) :
    Inv (handle_job_unit_completed_event id msg s) := by
  rw [handle_job_unit_completed_event]
  cases hl : lookupJob s.ids_to_job_map id with
  | none => exact inv_congr hs rfl rfl rfl rfl rfl rfl rfl rfl
  | some j =>
    refine inv_fill _ _ ?_
    obtain ⟨qcap, csort, clt, ksub, knd, ety, rout⟩ := hs
    exact ⟨qcap, csort, clt,
      fun k hk => ksub k (eraseKey_keys_sub hk),
      eraseKey_keys_nodup knd,
      fun p hp => ety p (eraseKey_sub hp),
      rout⟩

theorem inv_handle_jobdone (j : Nat) (s : JMState) (hs : Inv s) :
    Inv (handle_distributable_job_completed_event j s) := by
  obtain ⟨qcap, csort, clt, ksub, knd, ety, rout⟩ := hs
  refine ⟨qcap, csort, clt, ksub, knd, ?_, ?_⟩
  · intro p hp
    by_cases hpj : p.2 = j
    · exact Or.inr (Or.inr (List.mem_append_right _ (by simp [hpj])))
    · rcases ety p hp with h | h | h
      · exact Or.inl (List.mem_filter.mpr ⟨h, by simp [hpj]⟩)
      · exact Or.inr (Or.inl (List.mem_filter.mpr ⟨h, by simp [hpj]⟩))
      · exact Or.inr (Or.inr (List.mem_append_left _ h))
  · intro r hrm
    rcases List.mem_append.mp hrm with h | h
    · obtain ⟨h1, h2⟩ := rout r h
      exact ⟨fun hm => h1 (List.mem_of_mem_filter hm),
        fun hm => h2 (List.mem_of_mem_filter hm)⟩
    · obtain rfl := List.mem_singleton.mp h
      constructor <;> (intro hm; have hprop := (List.mem_filter.mp hm).2; simp at hprop)

theorem inv_handle_event (e : JMEvent) (s : JMState) (hs : Inv s) :
    Inv (handle_event e s) := by
  cases e with
  | freeClient => exact inv_handle_free s hs
  | jobUnitCompleted id msg => exact inv_handle_completed id msg s hs
  | distJobCompleted j => exact inv_handle_jobdone j s hs

theorem inv_run_step (s : JMState) (hs : Inv s) : Inv (run_scheduler_step s) := by
  rw [run_scheduler_step]
  cases hq : s.eventQueue with
  | nil => exact hs
  | cons e rest =>
    by_cases hst : s.status = Status.kRunning
    · simp only [if_pos hst]
      exact inv_handle_event e _ (inv_congr hs rfl rfl rfl rfl rfl rfl rfl rfl)
    · simp only [if_neg hst]
      exact inv_congr hs rfl rfl rfl rfl rfl rfl rfl rfl

theorem inv_init (c : Nat) : Inv (initState c) := by
  constructor <;> simp [initState, registryKeys]

theorem reachable_inv {c : Nat} {s : JMState} (h : Reachable c s) : Inv s := by
  unfold Reachable at h
  induction h with
  | refl => exact inv_init c
  | tail hab hstep ih =>
    cases hstep with
    | stepEnqueue j n hp hw hr => exact inv_enqueue _ j n hr ih
    | stepStart => exact inv_start _ ih
    | stepStop => exact inv_congr ih rfl rfl rfl rfl rfl rfl rfl rfl
    | stepFreeWorker => exact inv_congr ih rfl rfl rfl rfl rfl rfl rfl rfl
    | stepUnitCompleted id msg => exact inv_congr ih rfl rfl rfl rfl rfl rfl rfl rfl
    | stepJobCompleted j => exact inv_congr ih rfl rfl rfl rfl rfl rfl rfl rfl
    | stepLoop ht => exact inv_run_step _ ih
    | stepWake j n hw => exact inv_wake _ j n hw ih

theorem fill_post (fuel : Nat) (s : JMState)
    (h : s.capacity - s.jobQueue.length + s.producingJobs.length ≤ fuel) :
    job_queue_full (handle_job_queue_not_full_event fuel s) = true ∨
      (handle_job_queue_not_full_event fuel s).producingJobs = [] := by
  induction fuel generalizing s with
  | zero =>
    rw [handle_job_queue_not_full_event]
    have h2 : s.producingJobs.length = 0 := by omega
    exact Or.inr (List.length_eq_zero.mp h2)
  | succ n ih =>
    rw [handle_job_queue_not_full_event]
    by_cases hf : job_queue_full s
    · rw [if_pos hf]
      exact Or.inl hf
    · rw [if_neg hf]
      have hlen : s.jobQueue.length < s.capacity := by
        simp only [job_queue_full, decide_eq_true_eq] at hf
        omega
      cases hpj : s.producingJobs with
      | nil =>
        have hja : jobs_available s = none := by rw [jobs_available, hpj]
        rw [hja]
        exact Or.inr hpj
      | cons j rest =>
        have hja : jobs_available s = some j := by rw [jobs_available, hpj]
        rw [hja]
        apply ih
        rw [hpj] at h
        simp only [List.length_cons] at h
        by_cases hsup : 0 < getSupply s.supply j
        · simp only [create_another_job_unit, hpj, if_pos hsup, List.length_append,
            List.length_cons, List.length_nil]
          omega
        · simp only [create_another_job_unit, hpj, if_neg hsup]
          omega

theorem lookup_isSome_of_mem_keys {m : List (Nat × Nat)} {id : Nat}
    (h : id ∈ m.map Prod.fst) : ∃ j, lookupJob m id = some j := by
  cases hl : lookupJob m id with
  | none => exact (((lookupJob_eq_none_iff m id).mp hl) h).elim
  | some j => exact ⟨j, rfl⟩

theorem handle_completed_none (id msg : Nat) (s : JMState)
    (h : lookupJob s.ids_to_job_map id = none) :
    handle_job_unit_completed_event id msg s = { s with errorCount := s.errorCount + 1 } := by
  rw [handle_job_unit_completed_event, h]

theorem handle_completed_some (id msg j : Nat) (s : JMState)
    (h : lookupJob s.ids_to_job_map id = some j) (hid : id < s.nextUnitId) :
    lookupJob (handle_job_unit_completed_event id msg s).ids_to_job_map id = none ∧
    (handle_job_unit_completed_event id msg s).delivered = s.delivered ++ [(j, id, msg)] ∧
    (handle_job_unit_completed_event id msg s).status = s.status ∧
    (handle_job_unit_completed_event id msg s).eventQueue = s.eventQueue ∧
    (handle_job_unit_completed_event id msg s).errorCount = s.errorCount := by
  rw [handle_job_unit_completed_event, h]
  refine ⟨?_, ?_, ?_, ?_, ?_⟩
  · rw [fill_lookup_lt _ (retire_unit id msg j s) id hid]
    exact lookupJob_eraseKey_self _ _
  · exact (fill_frame _ (retire_unit id msg j s)).delivered_eq
  · exact (fill_frame _ (retire_unit id msg j s)).status_eq
  · exact (fill_frame _ (retire_unit id msg j s)).eventQueue_eq
  · exact (fill_frame _ (retire_unit id msg j s)).errorCount_eq

theorem handle_free_frame (s : JMState) :
    (handle_free_client_event s).status = s.status ∧
    (handle_free_client_event s).eventQueue = s.eventQueue ∧
    (handle_free_client_event s).trace = s.trace := by
  rw [handle_free_client_event]
  by_cases hw : 0 < s.freeWorkers
  · rw [if_pos hw]
    cases hq : s.jobQueue with
    | nil => exact ⟨rfl, rfl, rfl⟩
    | cons u rest => exact ⟨rfl, rfl, rfl⟩
  · rw [if_neg hw]
    exact ⟨rfl, rfl, rfl⟩

theorem handle_completed_frame (id msg : Nat) (s : JMState) :
    (handle_job_unit_completed_event id msg s).status = s.status ∧
    (handle_job_unit_completed_event id msg s).eventQueue = s.eventQueue ∧
    (handle_job_unit_completed_event id msg s).trace = s.trace := by
  rw [handle_job_unit_completed_event]
  cases hl : lookupJob s.ids_to_job_map id with
  | none => exact ⟨rfl, rfl, rfl⟩
  | some j =>
    exact ⟨(fill_frame _ (retire_unit id msg j s)).status_eq,
      (fill_frame _ (retire_unit id msg j s)).eventQueue_eq,
      (fill_frame _ (retire_unit id msg j s)).trace_eq⟩

theorem handle_event_frame (e : JMEvent) (s : JMState) :
    (handle_event e s).status = s.status ∧
    (handle_event e s).eventQueue = s.eventQueue ∧
    (handle_event e s).trace = s.trace := by
  cases e with
  | freeClient => exact handle_free_frame s
  | jobUnitCompleted id msg => exact handle_completed_frame id msg s
  | distJobCompleted j => exact ⟨rfl, rfl, rfl⟩

theorem run_step_running (s : JMState) (e : JMEvent) (rest : List JMEvent)
    (hst : s.status = Status.kRunning) (hq : s.eventQueue = e :: rest) :
    (run_scheduler_step s).status = Status.kRunning ∧
    (run_scheduler_step s).eventQueue = rest ∧
    (run_scheduler_step s).trace = s.trace ++ [e] := by
  rw [run_scheduler_step, hq]
  simp only [if_pos hst]
  obtain ⟨h1, h2, h3⟩ :=
    handle_event_frame e { s with eventQueue := rest, trace := s.trace ++ [e] }
  exact ⟨h1.trans hst, h2, h3⟩

theorem run_step_paused (s : JMState) (e : JMEvent) (rest : List JMEvent)
    (hst : s.status = Status.kPaused) (hq : s.eventQueue = e :: rest) :
    run_scheduler_step s = { s with eventQueue := rest } := by
  have hne : ¬ (s.status = Status.kRunning) := by
    rw [hst]
    intro hcon
    cases hcon
  rw [run_scheduler_step, hq]
  simp only [if_neg hne]

theorem runLoop_drains (k : Nat) (s : JMState) (hst : s.status = Status.kRunning)
    (hk : s.eventQueue.length = k) :
    (runLoop k s).status = Status.kRunning ∧
    (runLoop k s).eventQueue = [] ∧
    (runLoop k s).trace = s.trace ++ s.eventQueue := by
  induction k generalizing s with
  | zero =>
    rw [runLoop]
    have hq : s.eventQueue = [] := List.length_eq_zero.mp hk
    rw [hq]
    exact ⟨hst, rfl, by simp⟩
  | succ n ih =>
    cases hq : s.eventQueue with
    | nil => rw [hq] at hk; simp at hk
    | cons e rest =>
      rw [runLoop]
      obtain ⟨h1, h2, h3⟩ := run_step_running s e rest hst hq
      have hlen : (run_scheduler_step s).eventQueue.length = n := by
        rw [h2]
        rw [hq] at hk
        simpa using hk
      obtain ⟨g1, g2, g3⟩ := ih (run_scheduler_step s) h1 hlen
      refine ⟨g1, g2, ?_⟩
      rw [g3, h3, h2]
      simp

theorem reach_sW : Reachable 2 sW :=
  Relation.ReflTransGen.single
    (Step.stepEnqueue (initState 2) 7 2 (by decide) (by decide) (by decide))

theorem c7_reachable : Reachable 1 c7_state := by
  have h1 : Step (initState 1) (enqueue 5 1 (initState 1)) :=
    Step.stepEnqueue _ 5 1 (by decide) (by decide) (by decide)
  have h2 : Step (enqueue 5 1 (initState 1))
      (start_scheduler (enqueue 5 1 (initState 1))) :=
    Step.stepStart _
  have h3 : Step (start_scheduler (enqueue 5 1 (initState 1)))
      (distributable_job_completed_event 5 (start_scheduler (enqueue 5 1 (initState 1)))) :=
    Step.stepJobCompleted _ 5
  have h4 : Step
      (distributable_job_completed_event 5 (start_scheduler (enqueue 5 1 (initState 1))))
      c7_state :=
    Step.stepLoop _ (by decide)
  exact Relation.ReflTransGen.tail
    (Relation.ReflTransGen.tail (Relation.ReflTransGen.tail
      (Relation.ReflTransGen.single h1) h2) h3) h4

/-- C1: along every reachable execution, the unit IDs handed out by
`create_another_job_unit` are monotonically assigned (strictly increasing in
creation order), hence unique for the lifetime of the run; the registry holds
only created IDs below the counter, without duplicates; and each ID is removed
from the registry exactly once: handling a completion for a registered ID
removes it, and any further completion for the same ID takes the
UnknownUnitError path, changing nothing but the error count. -/
theorem C1_unit_ids_unique_accepted_once (c : Nat) (s : JMState) (h : Reachable c s) :
    List.Pairwise (· < ·) s.createdIds ∧
    s.createdIds.Nodup ∧
    (∀ id ∈ registryKeys s, id ∈ s.createdIds ∧ id < s.nextUnitId) ∧
    (registryKeys s).Nodup ∧
    (∀ id msg, id ∈ registryKeys s →
      id ∉ registryKeys (handle_job_unit_completed_event id msg s) ∧
      (∀ msg2,
        handle_job_unit_completed_event id msg2 (handle_job_unit_completed_event id msg s) =
          { handle_job_unit_completed_event id msg s with
              errorCount := (handle_job_unit_completed_event id msg s).errorCount + 1 })) := by
  obtain ⟨qcap, csort, clt, ksub, knd, ety, rout⟩ := reachable_inv h
  refine ⟨csort, csort.imp (fun hlt => Nat.ne_of_lt hlt),
    fun id hid => ⟨ksub id hid, clt id (ksub id hid)⟩, knd, ?_⟩
  intro id msg hid
  obtain ⟨j, hj⟩ := lookup_isSome_of_mem_keys hid
  have hidlt : id < s.nextUnitId := clt id (ksub id hid)
  obtain ⟨hnone, -, -, -, -⟩ := handle_completed_some id msg j s hj hidlt
  exact ⟨(lookupJob_eq_none_iff _ _).mp hnone,
    fun msg2 => handle_completed_none id msg2 _ hnone⟩

/-- Witness for C1 at the concrete reachable state `sW`: unit 0 is registered
there, and accepting its completion removes it from the registry for good. -/
theorem C1_unit_ids_unique_accepted_once_witness :
    0 ∉ registryKeys (handle_job_unit_completed_event 0 5 sW) :=
  ((C1_unit_ids_unique_accepted_once 2 sW reach_sW).2.2.2.2 0 5 (by decide)).1

/-- C2: the event queue is strictly FIFO and lossless: pushes append in
arrival order, and while the scheduler state is running, draining the queue
handles every pending event, in exactly push order — the handled trace extends
by the entire queue contents, with no drop, reordering, coalescing or
duplication. -/
theorem C2_fifo_order_no_drop (s : JMState) (hst : s.status = Status.kRunning) :
    (∀ e1 e2, (push_event e2 (push_event e1 s)).eventQueue = s.eventQueue ++ [e1, e2]) ∧
    (runLoop s.eventQueue.length s).eventQueue = [] ∧
    (runLoop s.eventQueue.length s).trace = s.trace ++ s.eventQueue := by
  obtain ⟨g1, g2, g3⟩ := runLoop_drains s.eventQueue.length s hst rfl
  refine ⟨fun e1 e2 => ?_, g2, g3⟩
  rw [push_event, push_event]
  simp

/-- Witness for C2: draining the concrete running state `c2_state` handles its
two pending completion events in push order. -/
theorem C2_fifo_order_no_drop_witness :
    (runLoop c2_state.eventQueue.length c2_state).trace =
      c2_state.trace ++ c2_state.eventQueue :=
  (C2_fifo_order_no_drop c2_state (by decide)).2.2

/-- C3: after `stop_scheduler` the state is paused; the loop thread still
dequeues, but an event dequeued while paused is dropped without being handled
and is not replayed after a later `start_scheduler`.  In the scenario "pause,
push 3 completion occurrences, drain, resume, push a 4th, handle it", the job
state reflects only the 4th occurrence: exactly its result is delivered, the
other three unit IDs stay registered (their completions were never accepted),
no error is counted, and the handled trace contains the 4th completion only. -/
theorem C3_paused_events_discarded :
    (∀ (s : JMState) (e : JMEvent) (rest : List JMEvent),
      s.status = Status.kPaused → s.eventQueue = e :: rest →
      run_scheduler_step s = { s with eventQueue := rest }) ∧
    (∀ s : JMState, (stop_scheduler s).status = Status.kPaused) ∧
    c3_final.delivered = [(7, 3, 99)] ∧
    c3_final.ids_to_job_map = [(0, 7), (1, 7), (2, 7)] ∧
    c3_final.errorCount = 0 ∧
    c3_final.trace = [JMEvent.freeClient, JMEvent.freeClient, JMEvent.freeClient,
      JMEvent.freeClient, JMEvent.jobUnitCompleted 3 99] := by
  exact ⟨fun s e rest hst hq => run_step_paused s e rest hst hq,
    fun s => rfl, by decide, by decide, by decide, by decide⟩

/-- Witness for C3: in the concrete paused state `c3_paused`, one loop
iteration removes the pending completion event without handling it. -/
theorem C3_paused_events_discarded_witness :
    run_scheduler_step c3_paused = { c3_paused with eventQueue := [] } :=
  C3_paused_events_discarded.1 c3_paused (JMEvent.jobUnitCompleted 0 10) []
    (by decide) (by decide)

/-- C4: an unknown unit ID on completion is non-fatal: the event is dropped
and counted, and the whole state is otherwise untouched (job lists, registry,
ready queue, scheduler status and event queue), so the loop keeps handling
subsequent events; a registered ID is removed from the registry and its result
payload is forwarded to the owning job. -/
theorem C4_unknown_unit_nonfatal (c : Nat) (s : JMState) (h : Reachable c s)
    (id msg : Nat) :
    (lookupJob s.ids_to_job_map id = none →
      handle_job_unit_completed_event id msg s =
        { s with errorCount := s.errorCount + 1 }) ∧
    (∀ j, lookupJob s.ids_to_job_map id = some j →
      lookupJob (handle_job_unit_completed_event id msg s).ids_to_job_map id = none ∧
      (handle_job_unit_completed_event id msg s).delivered = s.delivered ++ [(j, id, msg)] ∧
      (handle_job_unit_completed_event id msg s).status = s.status ∧
      (handle_job_unit_completed_event id msg s).eventQueue = s.eventQueue ∧
      (handle_job_unit_completed_event id msg s).errorCount = s.errorCount) := by
  obtain ⟨qcap, csort, clt, ksub, knd, ety, rout⟩ := reachable_inv h
  refine ⟨fun hn => handle_completed_none id msg s hn, fun j hj => ?_⟩
  have hid : id ∈ registryKeys s := List.mem_map.mpr ⟨(id, j), lookupJob_mem hj, rfl⟩
  exact handle_completed_some id msg j s hj (clt id (ksub id hid))

/-- Witness for C4: completing the never-issued unit 5 in `sW` only bumps the
error count. -/
theorem C4_unknown_unit_nonfatal_witness :
    handle_job_unit_completed_event 5 0 sW = { sW with errorCount := sW.errorCount + 1 } :=
  (C4_unknown_unit_nonfatal 2 sW reach_sW 5 0).1 (by decide)

/-- C5: in every reachable state the ready unit queue holds at most its
configured capacity of units; running the replenishment loop keeps the bound
and stops exactly when the queue is full or no producing job remains to offer
work (`jobs_available` is exhausted, every job with nothing to offer having
moved to the waiting list). -/
theorem C5_capacity_invariant (c : Nat) (s : JMState) (h : Reachable c s) :
    s.jobQueue.length ≤ s.capacity ∧
    (handle_job_queue_not_full_event (fillFuel s) s).jobQueue.length ≤ s.capacity ∧
    (job_queue_full (handle_job_queue_not_full_event (fillFuel s) s) = true ∨
      jobs_available (handle_job_queue_not_full_event (fillFuel s) s) = none) := by
  have hinv := reachable_inv h
  refine ⟨hinv.qcap, ?_, ?_⟩
  · have h2 := (inv_fill (fillFuel s) s hinv).qcap
    rwa [(fill_frame (fillFuel s) s).capacity_eq] at h2
  · rcases fill_post (fillFuel s) s (by rw [fillFuel]; omega) with hfull | hempty
    · exact Or.inl hfull
    · right
      rw [jobs_available, hempty]

/-- Witness for C5 at the concrete reachable state `sW`. -/
theorem C5_capacity_invariant_witness : sW.jobQueue.length ≤ sW.capacity :=
  (C5_capacity_invariant 2 sW reach_sW).1

/-- C6: `start_scheduler` and `stop_scheduler` are idempotent — a second call
in a row changes nothing; moreover start spawns the loop thread and runs when
stopped, resumes when paused, is a no-op when already running, and stop always
leaves the scheduler paused. -/
theorem C6_start_stop_idempotent (s : JMState) :
    start_scheduler (start_scheduler s) = start_scheduler s ∧
    stop_scheduler (stop_scheduler s) = stop_scheduler s ∧
    (s.status = Status.kStopped →
      (start_scheduler s).status = Status.kRunning ∧
      (start_scheduler s).threadSpawned = true) ∧
    (s.status = Status.kPaused → start_scheduler s = { s with status := Status.kRunning }) ∧
    (s.status = Status.kRunning → start_scheduler s = s) ∧
    (stop_scheduler s).status = Status.kPaused := by
  cases hst : s.status <;> simp [start_scheduler, stop_scheduler, hst]

/-- Witness for C6: starting twice from the stopped initial state equals
starting once, and the scheduler is then running. -/
theorem C6_start_stop_idempotent_witness :
    start_scheduler (start_scheduler (initState 3)) = start_scheduler (initState 3) ∧
    (start_scheduler (initState 3)).status = Status.kRunning :=
  ⟨(C6_start_stop_idempotent (initState 3)).1,
    ((C6_start_stop_idempotent (initState 3)).2.2.1 rfl).1⟩

/-- C7 counterexample: the literal invariant "every ID in the registry names a
job still present in the producing or waiting list" fails on the reachable
state `c7_state`: unit 0 is still registered to job 5, but job 5's completion
has been handled and it sits in neither list. -/
theorem C7_registry_invariant_counterexample :
    Reachable 1 c7_state ∧ ¬ RegistryJobsTracked c7_state :=
  ⟨c7_reachable, by unfold RegistryJobsTracked; decide⟩

/-- C7 amended: in every reachable state, every ID in the unit registry names
a job that is still present in the producing or waiting list, or a job whose
completion event has already been handled (its orphaned units stay registered,
as the registry is not purged on job completion). -/
theorem C7_registry_maps_to_tracked_or_completed (c : Nat) (s : JMState)
    (h : Reachable c s) :
    ∀ p ∈ s.ids_to_job_map,
      p.2 ∈ s.producingJobs ∨ p.2 ∈ s.waitingJobs ∨ p.2 ∈ s.removedJobs :=
  (reachable_inv h).entries_tracked

/-- Witness for the amended C7 at `c7_state`: the surviving registry entry
(0, 5) points at the already-completed job 5. -/
theorem C7_registry_maps_to_tracked_or_completed_witness :
    (0, 5).2 ∈ c7_state.producingJobs ∨ (0, 5).2 ∈ c7_state.waitingJobs ∨
      (0, 5).2 ∈ c7_state.removedJobs :=
  C7_registry_maps_to_tracked_or_completed 1 c7_state c7_reachable (0, 5) (by decide)

/-- C8: handling a job-completion occurrence removes the job from both the
producing and the waiting list while leaving the ready queue and the unit
registry untouched, and the job is never revisited: in every reachable state,
a job whose completion has been handled is in neither list. -/
theorem C8_job_completion_unlinks (c : Nat) (s : JMState) (h : Reachable c s) (j : Nat) :
    j ∉ (handle_distributable_job_completed_event j s).producingJobs ∧
    j ∉ (handle_distributable_job_completed_event j s).waitingJobs ∧
    (handle_distributable_job_completed_event j s).jobQueue = s.jobQueue ∧
    (handle_distributable_job_completed_event j s).ids_to_job_map = s.ids_to_job_map ∧
    (∀ r ∈ s.removedJobs, r ∉ s.producingJobs ∧ r ∉ s.waitingJobs) := by
  refine ⟨?_, ?_, rfl, rfl, (reachable_inv h).removed_out⟩
  · intro hm
    have hprop := (List.mem_filter.mp hm).2
    simp at hprop
  · intro hm
    have hprop := (List.mem_filter.mp hm).2
    simp at hprop

/-- Witness for C8: completing job 7 in `sW` removes it from the producing
list while its two queued units stay put. -/
theorem C8_job_completion_unlinks_witness :
    7 ∉ (handle_distributable_job_completed_event 7 sW).producingJobs :=
  (C8_job_completion_unlinks 2 sW reach_sW 7).1

/-- C9: the free-worker handler never names a specific worker (it only asks
the pool whether some worker is free): with an empty ready queue it takes no
action at all, with no free worker it takes no action, and with a free worker
and a non-empty ready queue it dispatches exactly the head unit, which becomes
pending. -/
theorem C9_free_worker_dispatch (s : JMState) :
    (s.jobQueue = [] → handle_free_client_event s = s) ∧
    (s.freeWorkers = 0 → handle_free_client_event s = s) ∧
    (∀ u rest, s.jobQueue = u :: rest → 0 < s.freeWorkers →
      handle_free_client_event s =
        { s with jobQueue := rest, pendingList := s.pendingList ++ [u],
                 freeWorkers := s.freeWorkers - 1 }) := by
  refine ⟨fun hq => ?_, fun hw => ?_, fun u rest hq hw => ?_⟩
  · rw [handle_free_client_event, hq]
    by_cases hw : 0 < s.freeWorkers
    · rw [if_pos hw]
    · rw [if_neg hw]
  · rw [handle_free_client_event]
    have hnw : ¬ 0 < s.freeWorkers := by omega
    rw [if_neg hnw]
  · rw [handle_free_client_event, hq, if_pos hw]

/-- Witness for C9: with one free worker announced on `sW`, the handler
dispatches head unit 0, leaving unit 1 queued. -/
theorem C9_free_worker_dispatch_witness :
    handle_free_client_event sW_free =
      { sW_free with jobQueue := [1], pendingList := sW_free.pendingList ++ [0],
                     freeWorkers := sW_free.freeWorkers - 1 } :=
  (C9_free_worker_dispatch sW_free).2.2 0 [1] (by decide) (by decide)

/-- C10: the JobManager is a process-wide singleton: starting from the NULL
instance pointer, the first `get_instance` call constructs the one instance;
from then on the stored pointer never changes, every later call returns the
same non-null instance the first call returned, and the constructor runs
exactly once no matter how many calls are made (it is private, as are the copy
constructor and assignment operator, so no other construction path exists). -/
theorem C10_get_instance_singleton (n : Nat) :
    callSeq n (get_instance ⟨none, 0⟩).1 = (get_instance ⟨none, 0⟩).1 ∧
    (get_instance (callSeq n (get_instance ⟨none, 0⟩).1)).2 = (get_instance ⟨none, 0⟩).2 ∧
    (callSeq n (get_instance ⟨none, 0⟩).1).ctorCalls = 1 ∧
    (callSeq n (get_instance ⟨none, 0⟩).1).inst ≠ none := by
  have hfix : ∀ m : Nat, callSeq m (⟨some 0, 1⟩ : SingletonSt) = ⟨some 0, 1⟩ := by
    intro m
    induction m with
    | zero => rfl
    | succ k ih => rw [callSeq]; exact ih
  have h0 : (get_instance ⟨none, 0⟩).1 = (⟨some 0, 1⟩ : SingletonSt) := rfl
  rw [h0, hfix n]
  exact ⟨rfl, rfl, rfl, by simp⟩

/-- Witness for C10: after five further calls the stored state is unchanged
from the state after the first call. -/
theorem C10_get_instance_singleton_witness :
    callSeq 5 (get_instance ⟨none, 0⟩).1 = (get_instance ⟨none, 0⟩).1 :=
  (C10_get_instance_singleton 5).1

end FuD
